import Mathlib

/-!
Shallow embedding of the Staff_Schedule Flask application (src/app.py).

The application keeps a `staffs` table and a `monthly_schedule` table in a
Postgres-backed store.  We model the `staffs` table as a `List Staff` (rows in
table order) and the `monthly_schedule` table as a `List ScheduleRow`.  Each
HTTP handler becomes a pure function from its request fields (absent JSON
fields become `none`) and the current table contents to the produced response
together with the updated table contents.
-/

namespace StaffSchedule

/-- One row of the `staffs` table (the fields used by src/app.py). -/
structure Staff where
  staff_id : String
  staff_name : String
  department : String
  busy_9_10 : Bool
  priority_count : Int
  priority_updated_month : Option String
  deriving Repr, DecidableEq, Inhabited

/-- One row of the `monthly_schedule` table. -/
structure ScheduleRow where
  staff_id : String
  month : String
  weekday : String
  gate : String
  deriving Repr, DecidableEq, Inhabited

/-- One entry of a day's `day_list` in the schedule response:
`{"staff_id": ..., "name": ..., "gate": ...}`.  The name is looked up in
`staff_map`; the lookup is modelled with `Option` (it never misses, because
every assignment id comes from `staff_map`). -/
structure Entry where
  staff_id : String
  name : Option String
  gate : String
  deriving Repr, DecidableEq, Inhabited

/-- The body of the schedule response:
`{"month": ..., "scheduled_days": ..., "shortage_days": ...}`.
`scheduled_days` is a dict built in weekday insertion order, modelled as an
association list. -/
structure ScheduleResult where
  month : String
  scheduled_days : List (String × List Entry)
  shortage_days : List String
  deriving Repr, DecidableEq, Inhabited

/-- An HTTP response of a handler.  `json s b` is `jsonify(...), s` with body
summarised by `b`; `scheduleOk` carries the schedule response body;
`typeError` is an uncaught Python `TypeError` escaping the handler (Flask
turns it into a 500 internal-server-error, i.e. no JSON error body is
produced by the handler itself). -/
inductive Resp where
  | json (status : Nat) (body : String)
  | scheduleOk (result : ScheduleResult)
  | typeError
  deriving Repr, DecidableEq, Inhabited

/-- `weekdays` from `generate_monthly_schedule`. -/
def weekdays : List String :=
  ["Monday", "Tuesday", "Wednesday", "Thursday", "Friday", "Saturday"]

/-- `gates` from `generate_monthly_schedule`. -/
def gates : List String := ["Gate A", "Gate B", "Gate C"]

/-- `TOTAL_SLOTS = 6 * len(weekdays)`. -/
def TOTAL_SLOTS : Nat := 6 * weekdays.length

/-- `priority_count` of the `i`-th staff object of a list. -/
def pcAt (staffs : List Staff) (i : Nat) : Int :=
  (staffs.getD i default).priority_count

/-- Stable insertion of `a` into a sorted list: `a` is placed before the
first element it compares `≤` to, so on ties the element inserted later (the
one earlier in the original list, with the fold below) comes first. -/
def insertStable {α : Type} (le : α → α → Bool) (a : α) : List α → List α
  | [] => [a]
  | b :: bs => if le a b then a :: b :: bs else b :: insertStable le a bs

/-- Stable insertion sort: the model of Python's `sorted`.  A stable sort of
a list under a total preorder has a unique output (each element's position
is determined by its key and its original position), so insertion sort
returns exactly the list Python's stable sort returns. -/
def sortStable {α : Type} (le : α → α → Bool) : List α → List α
  | [] => []
  | a :: as => insertStable le a (sortStable le as)

/-- The index (into `staff_map.values()` order) of the staff object picked by
`eligible = sorted(staff_map.values(), key=lambda s: s["priority_count"])`
followed by `eligible[0]`: the positions `0..n-1` are sorted stably by
`priority_count` and the head is taken. -/
def selIdx (staffs : List Staff) : Option Nat :=
  (sortStable (fun i j => decide (pcAt staffs i ≤ pcAt staffs j))
    (List.range staffs.length)).head?

/-- The progressive consumption loop
`while len(assignments) < TOTAL_SLOTS: ...` of `generate_monthly_schedule`.
`fuel` is the number of loop iterations still allowed
(`TOTAL_SLOTS - len(assignments)`); the loop body re-sorts, breaks when the
collection is empty or the least `priority_count` is already `>= 3`, and
otherwise appends `staff["staff_id"]` to `assignments` and immediately
increments that staff object's `priority_count` in place (the object is
shared with `staff_map`, modelled by updating the list at the picked
position).  Returns the final staff objects and the assignment list. -/
def consume : Nat → List Staff → List Staff × List String
  | 0, staffs => (staffs, [])
  | fuel + 1, staffs =>
    match selIdx staffs with
    | none => (staffs, [])
    | some i =>
      let s := staffs.getD i default
      if 3 ≤ s.priority_count then (staffs, [])
      else
        let staffs' := staffs.set i { s with priority_count := s.priority_count + 1 }
        let r := consume fuel staffs'
        (r.1, s.staff_id :: r.2)

/-- `staff_map[staff_id]["staff_name"]` (dict lookup by id). -/
def lookupName (staff_map : List Staff) (id : String) : Option String :=
  (staff_map.find? (fun s => s.staff_id == id)).map (fun s => s.staff_name)

/-- The inner `for _ in range(2)` seat loop of the mapping step, generalised
over the remaining seat count.  Returns the new `idx`, the entries appended
to `day_list` for this gate, and whether `shortage_days.append(day)` ran
(the `break` exits this innermost loop right after the append, so it runs at
most once per gate). -/
def fillSeats (asg : List String) (staff_map : List Staff) (g : String) :
    Nat → Nat → Nat × List Entry × Bool
  | 0, idx => (idx, [], false)
  | seats + 1, idx =>
    if asg.length ≤ idx then (idx, [], true)
    else
      let id := asg.getD idx ""
      let e : Entry := ⟨id, lookupName staff_map id, g⟩
      let r := fillSeats asg staff_map g seats (idx + 1)
      (r.1, e :: r.2.1, r.2.2)

/-- The `for g in gates` loop of the mapping step: two seats per gate; every
gate whose seat loop hit the exhaustion check contributes one
`shortage_days.append(day)`. -/
def fillGates (asg : List String) (staff_map : List Staff) (day : String) :
    List String → Nat → Nat × List Entry × List String
  | [], idx => (idx, [], [])
  | g :: gs, idx =>
    let r1 := fillSeats asg staff_map g 2 idx
    let r2 := fillGates asg staff_map day gs r1.1
    (r2.1, r1.2.1 ++ r2.2.1, (if r1.2.2 then [day] else []) ++ r2.2.2)

/-- The `for day in weekdays` loop of the mapping step: returns
`scheduled_days` (only days with a non-empty `day_list` are inserted) and the
raw `shortage_days` list (with repetitions, in append order). -/
def fillDays (asg : List String) (staff_map : List Staff) :
    List String → Nat → List (String × List Entry) × List String
  | [], _ => ([], [])
  | d :: ds, idx =>
    let r1 := fillGates asg staff_map d gates idx
    let r2 := fillDays asg staff_map ds r1.1
    ((if r1.2.1.isEmpty then [] else [(d, r1.2.1)]) ++ r2.1, r1.2.2 ++ r2.2)

/-- Helper for `setList`: keeps the first occurrence of each string, skipping
strings already seen. -/
def dedupAux (seen : List String) : List String → List String
  | [] => []
  | x :: xs =>
    if seen.contains x then dedupAux seen xs
    else x :: dedupAux (x :: seen) xs

/-- `list(set(shortage_days))`: each distinct element exactly once.  Python's
set iteration order is unspecified, so any enumeration of the distinct
elements is a faithful model; we keep first occurrences in order.  Every
claim about the shortage list concerns only membership and multiplicity. -/
def setList (l : List String) : List String := dedupAux [] l

/-- One `supabase.table("staffs").update({...}).eq("staff_id", id)` call:
sets `priority_count` and `priority_updated_month` on every row whose
`staff_id` matches, leaving all other fields and rows unchanged. -/
def applyStaffUpdate (db : List Staff) (id : String) (pc : Int)
    (pum : Option String) : List Staff :=
  db.map (fun r =>
    if r.staff_id == id then
      { r with priority_count := pc, priority_updated_month := pum }
    else r)

/-- The staff fetch of `generate_monthly_schedule`:
`select * where busy_9_10 = false order by priority_count`.  The `order by`
is modelled as a stable sort on the table order. -/
def fetchEligible (db : List Staff) : List Staff :=
  sortStable (fun a b => decide (a.priority_count ≤ b.priority_count))
    (db.filter (fun s => s.busy_9_10 == false))

/-- The `POST /schedule` handler `generate_monthly_schedule`.
`month_input = data.get("month")` is `none` when absent; `if not month_input`
rejects both an absent and an empty month.  `staff_map` is a dict keyed by
`staff_id` in fetch order; `staff_id` is the table's key (the `/staff`
handler never inserts a duplicate), so the dict's values in insertion order
are the fetched rows themselves.  The final `list(set(shortage_days))`
deduplication is modelled with `setList`.  Returns the response and the
updated `staffs` table after the per-staff write-back loop. -/
def generate_monthly_schedule (month_input : Option String) (db : List Staff) :
    Resp × List Staff :=
  match month_input with
  | none => (.json 400 "month required", db)
  | some m =>
    if m = "" then (.json 400 "month required", db)
    else
      let month_date := m ++ "-01"
      let staff_map := fetchEligible db
      let r := consume TOTAL_SLOTS staff_map
      let mapped := fillDays r.2 r.1 weekdays 0
      let db' := r.1.foldl
        (fun acc s => applyStaffUpdate acc s.staff_id s.priority_count (some month_date)) db
      (.scheduleOk ⟨m, mapped.1, setList mapped.2⟩, db')

/-- The schedule rows inserted by the mapping step: one
`monthly_schedule.insert({staff_id, month, weekday, gate})` per filled seat,
i.e. one per entry of `scheduled_days`, in fill order. -/
def insertedRows (month_date : String)
    (sched : List (String × List Entry)) : List ScheduleRow :=
  sched.flatMap (fun p => p.2.map (fun e => ⟨e.staff_id, month_date, p.1, e.gate⟩))

/-- `data.get(k)` truthiness: Python's `not x` is true for an absent field
(`None`) and for the empty string. -/
def truthy : Option String → Bool
  | none => false
  | some s => !(s == "")

/-- The `POST /staff` handler `add_or_update_staff`.  `busy_9_10` arrives
already coerced by `bool(data.get("busy_9_10"))`. -/
def add_or_update_staff (staff_id staff_name department : Option String)
    (busy_9_10 : Bool) (db : List Staff) : Resp × List Staff :=
  if !(truthy staff_id) || !(truthy staff_name) || !(truthy department) then
    (.json 400 "staff_id, staff_name, department required", db)
  else
    let sid := staff_id.getD ""
    let sname := staff_name.getD ""
    let dept := department.getD ""
    if (db.filter (fun r => r.staff_id == sid)).isEmpty then
      (.json 201 "Staff added", db ++ [⟨sid, sname, dept, busy_9_10, 0, none⟩])
    else
      (.json 200 "Staff updated",
        db.map (fun r =>
          if r.staff_id == sid then
            { r with staff_name := sname, department := dept, busy_9_10 := busy_9_10 }
          else r))

/-- The `POST /reset-priority` handler `reset_priority`: the unfiltered
update hits every row of `staffs`. -/
def reset_priority (confirmation : Option String) (db : List Staff) :
    Resp × List Staff :=
  if confirmation = some "CONFIRM" then
    (.json 200 "All staff priorities reset",
      db.map (fun r => { r with priority_count := 0, priority_updated_month := none }))
  else (.json 400 "Confirmation failed", db)

/-- The `POST /delete-month` handler `delete_month_schedule`.  When the
confirmation passes but `month` is absent, `month + "-01"` is
`None + "-01"`, which raises an uncaught Python `TypeError`. -/
def delete_month_schedule (month confirmation : Option String)
    (sched : List ScheduleRow) : Resp × List ScheduleRow :=
  if confirmation = some "CONFIRM" then
    match month with
    | none => (.typeError, sched)
    | some m =>
      let month_date := m ++ "-01"
      (.json 200 (m ++ " deleted"), sched.filter (fun r => !(r.month == month_date)))
  else (.json 400 "Type CONFIRM", sched)

/-! ### Derived definitions used by the verification -/

/-- The in-place `staff["priority_count"] += 1` on the object at position `i`
of `staff_map.values()`. -/
def bumpAt (staffs : List Staff) (i : Nat) : List Staff :=
  staffs.set i { staffs.getD i default with
    priority_count := (staffs.getD i default).priority_count + 1 }

/-- Fields other than `priority_count` agree. -/
def sameExceptPc (a b : Staff) : Prop :=
  a.staff_id = b.staff_id ∧ a.staff_name = b.staff_name ∧
  a.department = b.department ∧ a.busy_9_10 = b.busy_9_10 ∧
  a.priority_updated_month = b.priority_updated_month

/-- The `staff_id` column of a staff list. -/
def idsOf (staffs : List Staff) : List String :=
  staffs.map (fun s => s.staff_id)

/-- The remaining assignment capacity of the collection: each staff object can
still absorb `max 0 (3 - priority_count)` assignments before the ceiling
check excludes it. -/
def capacity (staffs : List Staff) : Int :=
  (staffs.map (fun s => max 0 (3 - s.priority_count))).sum

/-- The per-staff write-back loop of `generate_monthly_schedule`. -/
def writeback (final : List Staff) (db : List Staff) (md : String) : List Staff :=
  final.foldl
    (fun acc s => applyStaffUpdate acc s.staff_id s.priority_count (some md)) db

/-- The `shortage_days` component of a schedule response. -/
def respShortage : Resp → List String
  | .scheduleOk r => r.shortage_days
  | _ => []

/-- The `scheduled_days` component of a schedule response. -/
def respScheduled : Resp → List (String × List Entry)
  | .scheduleOk r => r.scheduled_days
  | _ => []

/-- Whether a response is an HTTP 400 JSON error — the form every parameter
or confirmation rejection in src/app.py takes. -/
def isErrorResponse : Resp → Bool
  | .json 400 _ => true
  | _ => false

instance : Std.Antisymm (fun (a b : Int) => a ≤ b) where
  antisymm h1 h2 := le_antisymm h1 h2

/-- Sample staff rows for concrete instantiations. -/
def wA : Staff := ⟨"A", "Alice", "Ops", false, 0, none⟩

def wB : Staff := ⟨"B", "Bob", "Ops", false, 0, none⟩

def wC : Staff := ⟨"C", "Carol", "Ops", false, 0, none⟩

def wD : Staff := ⟨"D", "Dan", "Ops", false, 5, none⟩

def wE : Staff := ⟨"E", "Eve", "Ops", true, 0, none⟩

def wF : Staff := ⟨"F", "Fay", "Ops", false, 7, some "2024-12-01"⟩

/-! ### Properties of the selection step -/

lemma pair_sublist_range {j i : Nat} (hji : j < i) :
    ∀ {n : Nat}, i < n → [j, i].Sublist (List.range n) := by
  intro n
  induction n with
  | zero => intro h; exact absurd h (Nat.not_lt_zero _)
  | succ n ih =>
    intro hin
    rw [List.range_succ]
    rcases Nat.lt_or_ge i n with h | h
    · exact (ih h).trans (List.sublist_append_left _ _)
    · have hi : i = n := by omega
      subst hi
      have h1 : [j].Sublist (List.range i) :=
        List.singleton_sublist.mpr (List.mem_range.mpr hji)
      exact List.Sublist.append h1 (List.Sublist.refl _)

lemma length_insertStable {α : Type} (le : α → α → Bool) (a : α) :
    ∀ l, (insertStable le a l).length = l.length + 1 := by
  intro l
  induction l with
  | nil => rfl
  | cons b bs ih =>
    rw [insertStable]
    by_cases hab : le a b
    · rw [if_pos hab]; rfl
    · rw [if_neg hab]
      simp [ih]

lemma length_sortStable {α : Type} (le : α → α → Bool) :
    ∀ l, (sortStable le l).length = l.length := by
  intro l
  induction l with
  | nil => rfl
  | cons a as ih =>
    rw [sortStable, length_insertStable, ih]
    rfl

lemma insertStable_perm {α : Type} (le : α → α → Bool) (a : α) :
    ∀ l, (insertStable le a l).Perm (a :: l) := by
  intro l
  induction l with
  | nil => exact List.Perm.refl _
  | cons b bs ih =>
    rw [insertStable]
    by_cases hab : le a b
    · rw [if_pos hab]
    · rw [if_neg hab]
      exact (ih.cons b).trans (List.Perm.swap a b bs)

lemma sortStable_perm {α : Type} (le : α → α → Bool) :
    ∀ l, (sortStable le l).Perm l := by
  intro l
  induction l with
  | nil => exact List.Perm.refl _
  | cons a as ih =>
    exact (insertStable_perm le a (sortStable le as)).trans (ih.cons a)

/-- The head of a stable insertion sort of a duplicate-free list is a member
that is `le` every element and that no strictly-earlier element (in input
order) ties with or beats. -/
lemma sortStable_head_spec {α : Type} (le : α → α → Bool)
    (htrans : ∀ a b c, le a b = true → le b c = true → le a c = true)
    (htot : ∀ a b, le a b = true ∨ le b a = true) :
    ∀ (l : List α), l.Nodup → ∀ i, (sortStable le l).head? = some i →
      i ∈ l ∧ (∀ j ∈ l, le i j = true) ∧
      (∀ j, [j, i].Sublist l → j ≠ i → le j i = false) := by
  have hrefl : ∀ x : α, le x x = true := fun x => (htot x x).elim id id
  intro l
  induction l with
  | nil => intro _ i h; cases h
  | cons a as ih =>
    intro hnd i h
    have hndas : as.Nodup := (List.nodup_cons.mp hnd).2
    have hnotmem : a ∉ as := (List.nodup_cons.mp hnd).1
    cases hs : sortStable le as with
    | nil =>
      have has : as = [] := by
        have hl := length_sortStable le as
        rw [hs] at hl
        exact List.length_eq_zero.mp hl.symm
      subst has
      obtain rfl : a = i := by
        rw [sortStable, hs] at h
        cases h
        rfl
      refine ⟨List.mem_cons_self _ _, ?_, ?_⟩
      · intro j hj
        rcases List.mem_cons.mp hj with rfl | hj
        · exact hrefl _
        · cases hj
      · intro j hsub hne
        cases hsub with
        | cons _ h2 =>
          have hmm : a ∈ ([] : List α) := h2.subset (by simp)
          cases hmm
        | cons₂ _ _ => exact absurd rfl hne
    | cons m rest =>
      have hmh : (sortStable le as).head? = some m := by rw [hs]; rfl
      obtain ⟨hm1, hm2, hm3⟩ := ih hndas m hmh
      rw [sortStable, hs] at h
      by_cases ham : le a m = true
      · rw [insertStable, if_pos ham] at h
        obtain rfl : a = i := by cases h; rfl
        refine ⟨List.mem_cons_self _ _, ?_, ?_⟩
        · intro j hj
          rcases List.mem_cons.mp hj with rfl | hj
          · exact hrefl _
          · exact htrans _ _ _ ham (hm2 j hj)
        · intro j hsub hne
          cases hsub with
          | cons _ h2 =>
            have hmm : a ∈ as := h2.subset (by simp)
            exact absurd hmm hnotmem
          | cons₂ _ _ => exact absurd rfl hne
      · rw [insertStable, if_neg ham] at h
        obtain rfl : m = i := by cases h; rfl
        refine ⟨List.mem_cons_of_mem _ hm1, ?_, ?_⟩
        · intro j hj
          rcases List.mem_cons.mp hj with rfl | hj
          · rcases htot j m with hr | hr
            · exact absurd hr ham
            · exact hr
          · exact hm2 j hj
        · intro j hsub hne
          cases hsub with
          | cons _ h2 => exact hm3 j h2 hne
          | cons₂ _ _ =>
            exact Bool.not_eq_true _ ▸ ham

/-- The selected index exists, achieves the global minimum `priority_count`,
and is the first position achieving it (stability of Python's `sorted`). -/
lemma selIdx_spec {staffs : List Staff} {i : Nat} (h : selIdx staffs = some i) :
    i < staffs.length ∧
    (∀ j, j < staffs.length → pcAt staffs i ≤ pcAt staffs j) ∧
    (∀ j, j < i → pcAt staffs i < pcAt staffs j) := by
  have htrans : ∀ a b c : Nat,
      decide (pcAt staffs a ≤ pcAt staffs b) = true →
      decide (pcAt staffs b ≤ pcAt staffs c) = true →
      decide (pcAt staffs a ≤ pcAt staffs c) = true := by
    intro a b c hab hbc
    simp only [decide_eq_true_eq] at *
    exact le_trans hab hbc
  have htot : ∀ a b : Nat,
      decide (pcAt staffs a ≤ pcAt staffs b) = true ∨
      decide (pcAt staffs b ≤ pcAt staffs a) = true := by
    intro a b
    simp only [decide_eq_true_eq]
    exact le_total _ _
  obtain ⟨h1, h2, h3⟩ := sortStable_head_spec _ htrans htot
    (List.range staffs.length) (List.nodup_range _) i h
  have hin : i < staffs.length := List.mem_range.mp h1
  refine ⟨hin, ?_, ?_⟩
  · intro j hj
    have := h2 j (List.mem_range.mpr hj)
    simpa using this
  · intro j hj
    have hsub : [j, i].Sublist (List.range staffs.length) :=
      pair_sublist_range hj hin
    have := h3 j hsub (Nat.ne_of_lt hj)
    simp only [decide_eq_false_iff_not, not_le] at this
    exact this

/-- The selection returns `none` exactly on an empty collection. -/
lemma selIdx_eq_none_iff {staffs : List Staff} :
    selIdx staffs = none ↔ staffs = [] := by
  rw [selIdx, List.head?_eq_none_iff]
  constructor
  · intro h
    have hl := congrArg List.length h
    rw [length_sortStable, List.length_range] at hl
    exact List.length_eq_zero.mp hl
  · intro h
    subst h
    rfl

/-! ### Properties of the consumption loop -/

lemma consume_succ (fuel : Nat) (staffs : List Staff) :
    consume (fuel + 1) staffs =
      match selIdx staffs with
      | none => (staffs, [])
      | some i =>
        let s := staffs.getD i default
        if 3 ≤ s.priority_count then (staffs, [])
        else
          let r := consume fuel (bumpAt staffs i)
          (r.1, s.staff_id :: r.2) := rfl

lemma consume_succ_none {staffs : List Staff} (h : selIdx staffs = none)
    (fuel : Nat) : consume (fuel + 1) staffs = (staffs, []) := by
  rw [consume_succ, h]

lemma consume_succ_stop {staffs : List Staff} {i : Nat} (h : selIdx staffs = some i)
    (h3 : 3 ≤ pcAt staffs i) (fuel : Nat) : consume (fuel + 1) staffs = (staffs, []) := by
  rw [consume_succ, h]
  exact if_pos h3

lemma consume_succ_of_lt {staffs : List Staff} {i : Nat} (h : selIdx staffs = some i)
    (h3 : pcAt staffs i < 3) (fuel : Nat) :
    consume (fuel + 1) staffs =
      ((consume fuel (bumpAt staffs i)).1,
        (staffs.getD i default).staff_id :: (consume fuel (bumpAt staffs i)).2) := by
  rw [consume_succ, h]
  exact if_neg (not_le.mpr h3)

lemma length_bumpAt (staffs : List Staff) (i : Nat) :
    (bumpAt staffs i).length = staffs.length := by
  simp [bumpAt]

lemma getD_bumpAt_self {staffs : List Staff} {i : Nat} (hi : i < staffs.length) :
    (bumpAt staffs i).getD i default =
      { staffs.getD i default with
        priority_count := (staffs.getD i default).priority_count + 1 } := by
  simp [bumpAt, List.getD_eq_getElem?_getD, List.getElem?_set_self hi]

lemma getD_bumpAt_ne {staffs : List Staff} {i j : Nat} (hij : i ≠ j) :
    (bumpAt staffs i).getD j default = staffs.getD j default := by
  simp [bumpAt, List.getD_eq_getElem?_getD, List.getElem?_set_ne hij]

lemma sameExceptPc_refl (a : Staff) : sameExceptPc a a :=
  ⟨rfl, rfl, rfl, rfl, rfl⟩

lemma sameExceptPc_trans {a b c : Staff} (h1 : sameExceptPc a b)
    (h2 : sameExceptPc b c) : sameExceptPc a c := by
  obtain ⟨x1, x2, x3, x4, x5⟩ := h1
  obtain ⟨y1, y2, y3, y4, y5⟩ := h2
  exact ⟨x1.trans y1, x2.trans y2, x3.trans y3, x4.trans y4, x5.trans y5⟩

lemma consume_length (fuel : Nat) (staffs : List Staff) :
    (consume fuel staffs).1.length = staffs.length := by
  induction fuel generalizing staffs with
  | zero => rfl
  | succ fuel ih =>
    cases h : selIdx staffs with
    | none => rw [consume_succ_none h]
    | some i =>
      rcases lt_or_le (pcAt staffs i) 3 with h3 | h3
      · rw [consume_succ_of_lt h h3]
        rw [ih, length_bumpAt]
      · rw [consume_succ_stop h h3]

/-- Pointwise tracking across the loop: every position keeps its identity
fields, its `priority_count` never decreases, and it never ends above
`max (initial value) 3`. -/
lemma consume_pointwise (fuel : Nat) (staffs : List Staff) (j : Nat) :
    sameExceptPc ((consume fuel staffs).1.getD j default) (staffs.getD j default) ∧
    (staffs.getD j default).priority_count ≤
      ((consume fuel staffs).1.getD j default).priority_count ∧
    ((consume fuel staffs).1.getD j default).priority_count ≤
      max (staffs.getD j default).priority_count 3 := by
  induction fuel generalizing staffs with
  | zero => exact ⟨sameExceptPc_refl _, le_refl _, le_max_left _ _⟩
  | succ fuel ih =>
    cases h : selIdx staffs with
    | none => rw [consume_succ_none h]; exact ⟨sameExceptPc_refl _, le_refl _, le_max_left _ _⟩
    | some i =>
      rcases lt_or_le (pcAt staffs i) 3 with h3 | h3
      · rw [consume_succ_of_lt h h3]
        obtain ⟨hsame, hmono, hmax⟩ := ih (bumpAt staffs i)
        by_cases hij : i = j
        · subst hij
          have hi : i < staffs.length := (selIdx_spec h).1
          rw [getD_bumpAt_self hi] at hsame hmono hmax
          have hpc : ({ staffs.getD i default with
              priority_count := (staffs.getD i default).priority_count + 1 } :
                Staff).priority_count =
              (staffs.getD i default).priority_count + 1 := rfl
          rw [hpc] at hmono hmax
          simp only [pcAt] at h3
          refine ⟨sameExceptPc_trans hsame (sameExceptPc_refl _), ?_, ?_⟩
          · exact le_trans (by omega) hmono
          · refine le_trans hmax ?_
            omega
        · rw [getD_bumpAt_ne hij] at hsame hmono hmax
          exact ⟨hsame, hmono, hmax⟩
      · rw [consume_succ_stop h h3]
        exact ⟨sameExceptPc_refl _, le_refl _, le_max_left _ _⟩

lemma consume_id_eq (fuel : Nat) (staffs : List Staff) (j : Nat) :
    ((consume fuel staffs).1.getD j default).staff_id =
      (staffs.getD j default).staff_id :=
  (consume_pointwise fuel staffs j).1.1

lemma consume_asg_length_le (fuel : Nat) (staffs : List Staff) :
    (consume fuel staffs).2.length ≤ fuel := by
  induction fuel generalizing staffs with
  | zero => simp [consume]
  | succ fuel ih =>
    cases h : selIdx staffs with
    | none => rw [consume_succ_none h]; simp
    | some i =>
      rcases lt_or_le (pcAt staffs i) 3 with h3 | h3
      · rw [consume_succ_of_lt h h3]
        simpa using Nat.succ_le_succ (ih (bumpAt staffs i))
      · rw [consume_succ_stop h h3]; simp

/-! ### Identity bookkeeping -/

lemma idsOf_getD {staffs : List Staff} {j : Nat} (hj : j < staffs.length) :
    (idsOf staffs).getD j "" = (staffs.getD j default).staff_id := by
  have hj' : j < (idsOf staffs).length := by simpa [idsOf] using hj
  rw [List.getD_eq_getElem _ _ hj', List.getD_eq_getElem _ _ hj]
  simp [idsOf]

lemma idsOf_bumpAt (staffs : List Staff) (i : Nat) :
    idsOf (bumpAt staffs i) = idsOf staffs := by
  rcases lt_or_le i staffs.length with hi | hi
  · have hset : idsOf (bumpAt staffs i) = (idsOf staffs).set i
        ((staffs.getD i default).staff_id) := by
      simp [idsOf, bumpAt, List.map_set]
    rw [hset]
    apply List.ext_getElem
    · simp
    · intro j h1 h2
      rcases eq_or_ne i j with rfl | hij
      · rw [List.getElem_set_self, ← List.getD_eq_getElem (idsOf staffs) "" h2,
          idsOf_getD hi]
      · rw [List.getElem_set_ne hij]
  · rw [bumpAt, List.set_eq_of_length_le hi]

lemma idsOf_nodup_bumpAt {staffs : List Staff} (i : Nat)
    (h : (idsOf staffs).Nodup) : (idsOf (bumpAt staffs i)).Nodup := by
  rw [idsOf_bumpAt]; exact h

/-- With pairwise-distinct `staff_id`s, equal ids at two positions force the
positions to coincide. -/
lemma idsOf_inj {staffs : List Staff} (hnd : (idsOf staffs).Nodup)
    {a b : Nat} (ha : a < staffs.length) (hb : b < staffs.length)
    (h : (staffs.getD a default).staff_id = (staffs.getD b default).staff_id) :
    a = b := by
  have ha' : a < (idsOf staffs).length := by simpa [idsOf] using ha
  have hb' : b < (idsOf staffs).length := by simpa [idsOf] using hb
  have hget : (idsOf staffs).get ⟨a, ha'⟩ = (idsOf staffs).get ⟨b, hb'⟩ := by
    simp only [List.get_eq_getElem]
    rw [← List.getD_eq_getElem _ "" ha', ← List.getD_eq_getElem _ "" hb',
      idsOf_getD ha, idsOf_getD hb]
    exact h
  exact congrArg Fin.val (hnd.get_inj_iff.mp hget)

/-- Every produced assignment is the `staff_id` of some fetched staff
position. -/
lemma consume_asg_mem (fuel : Nat) (staffs : List Staff) :
    ∀ id ∈ (consume fuel staffs).2,
      ∃ j, j < staffs.length ∧ (staffs.getD j default).staff_id = id := by
  induction fuel generalizing staffs with
  | zero => intro id hid; simp [consume] at hid
  | succ fuel ih =>
    intro id hid
    cases h : selIdx staffs with
    | none => rw [consume_succ_none h] at hid; simp at hid
    | some i =>
      rcases lt_or_le (pcAt staffs i) 3 with h3 | h3
      · rw [consume_succ_of_lt h h3] at hid
        rcases List.mem_cons.mp hid with rfl | htail
        · exact ⟨i, (selIdx_spec h).1, rfl⟩
        · obtain ⟨j, hj, hjid⟩ := ih (bumpAt staffs i) id htail
          rw [length_bumpAt] at hj
          refine ⟨j, hj, ?_⟩
          rcases eq_or_ne i j with rfl | hij
          · rw [getD_bumpAt_self hj] at hjid; exact hjid
          · rw [getD_bumpAt_ne hij] at hjid; exact hjid
      · rw [consume_succ_stop h h3] at hid; simp at hid

/-- With pairwise-distinct ids, the number of times a position's id occurs in
the assignment list is exactly its `priority_count` increase. -/
lemma consume_count (fuel : Nat) (staffs : List Staff)
    (hnd : (idsOf staffs).Nodup) {j : Nat} (hj : j < staffs.length) :
    ((consume fuel staffs).2.count (staffs.getD j default).staff_id : Int) =
      ((consume fuel staffs).1.getD j default).priority_count -
        (staffs.getD j default).priority_count := by
  induction fuel generalizing staffs with
  | zero => simp [consume]
  | succ fuel ih =>
    cases h : selIdx staffs with
    | none => rw [consume_succ_none h]; simp
    | some i =>
      have hi : i < staffs.length := (selIdx_spec h).1
      rcases lt_or_le (pcAt staffs i) 3 with h3 | h3
      · rw [consume_succ_of_lt h h3]
        have hj' : j < (bumpAt staffs i).length := by rw [length_bumpAt]; exact hj
        have ihb := ih (bumpAt staffs i) (idsOf_nodup_bumpAt i hnd) hj'
        rcases eq_or_ne i j with rfl | hij
        · rw [List.count_cons]
          simp only [beq_self_eq_true, if_true]
          rw [getD_bumpAt_self hi] at ihb
          have hpc : ({ staffs.getD i default with
              priority_count := (staffs.getD i default).priority_count + 1 } :
                Staff).priority_count =
              (staffs.getD i default).priority_count + 1 := rfl
          have hsid : ({ staffs.getD i default with
              priority_count := (staffs.getD i default).priority_count + 1 } :
                Staff).staff_id = (staffs.getD i default).staff_id := rfl
          rw [hpc, hsid] at ihb
          push_cast
          omega
        · rw [List.count_cons]
          have hne : (staffs.getD i default).staff_id ≠
              (staffs.getD j default).staff_id := by
            intro hcon
            exact hij (idsOf_inj hnd hi hj hcon)
          simp only [beq_iff_eq, if_neg hne, Nat.add_zero]
          rw [getD_bumpAt_ne hij] at ihb
          exact ihb
      · rw [consume_succ_stop h h3]; simp

/-- With pairwise-distinct ids, a position whose id never appears in the
assignment list keeps its `priority_count`. -/
lemma consume_pc_of_not_assigned (fuel : Nat) (staffs : List Staff)
    (hnd : (idsOf staffs).Nodup) {j : Nat} (hj : j < staffs.length)
    (h : (staffs.getD j default).staff_id ∉ (consume fuel staffs).2) :
    ((consume fuel staffs).1.getD j default).priority_count =
      (staffs.getD j default).priority_count := by
  have hc := consume_count fuel staffs hnd hj
  rw [List.count_eq_zero_of_not_mem h] at hc
  omega

/-! ### Capacity: the supply-sufficiency argument -/

lemma sum_set_int (l : List Int) (j : Nat) (v : Int) (hj : j < l.length) :
    (l.set j v).sum = l.sum - l.getD j 0 + v := by
  induction l generalizing j with
  | nil => simp at hj
  | cons a l ih =>
    cases j with
    | zero => simp [List.set]; ring
    | succ n =>
      have hn : n < l.length := by simpa using hj
      simp only [List.set, List.sum_cons, List.getD_cons_succ]
      rw [ih n hn]
      ring

lemma capacity_bumpAt {staffs : List Staff} {i : Nat} (hi : i < staffs.length)
    (h3 : pcAt staffs i < 3) :
    capacity (bumpAt staffs i) = capacity staffs - 1 := by
  have hmap : (bumpAt staffs i).map (fun s => max 0 (3 - s.priority_count)) =
      (staffs.map (fun s => max 0 (3 - s.priority_count))).set i
        (max 0 (3 - ((staffs.getD i default).priority_count + 1))) := by
    simp [bumpAt, List.map_set]
  have hi' : i < (staffs.map (fun s => max 0 (3 - s.priority_count))).length := by
    simpa using hi
  have hgd : (staffs.map (fun s => max 0 (3 - s.priority_count))).getD i 0 =
      max 0 (3 - (staffs.getD i default).priority_count) := by
    rw [List.getD_eq_getElem _ _ hi', List.getD_eq_getElem _ _ hi]
    simp
  rw [capacity, hmap, sum_set_int _ _ _ hi', hgd]
  simp only [pcAt] at h3
  rw [capacity]
  omega

lemma capacity_pos_exists {staffs : List Staff} (h : 0 < capacity staffs) :
    ∃ k, k < staffs.length ∧ pcAt staffs k < 3 := by
  induction staffs with
  | nil => simp [capacity] at h
  | cons a l ih =>
    rcases lt_or_le a.priority_count 3 with h3 | h3
    · exact ⟨0, Nat.succ_pos _, by simpa [pcAt] using h3⟩
    · have hz : max 0 (3 - a.priority_count) = 0 := by omega
      have hl : 0 < capacity l := by
        simpa [capacity, hz] using h
      obtain ⟨k, hk, hk3⟩ := ih hl
      exact ⟨k + 1, Nat.succ_lt_succ hk, by simpa [pcAt] using hk3⟩

/-- When the remaining capacity covers the remaining slots, the loop fills
every remaining slot. -/
lemma consume_full (fuel : Nat) (staffs : List Staff)
    (h : (fuel : Int) ≤ capacity staffs) :
    (consume fuel staffs).2.length = fuel := by
  induction fuel generalizing staffs with
  | zero => simp [consume]
  | succ fuel ih =>
    have hpos : 0 < capacity staffs := by push_cast at h; omega
    obtain ⟨k, hk, hk3⟩ := capacity_pos_exists hpos
    have hne : staffs ≠ [] := by
      intro hcon; rw [hcon] at hk; simp at hk
    obtain ⟨i, hi⟩ : ∃ i, selIdx staffs = some i := by
      cases hsel : selIdx staffs with
      | none => exact absurd (selIdx_eq_none_iff.mp hsel) hne
      | some i => exact ⟨i, rfl⟩
    have h3 : pcAt staffs i < 3 :=
      lt_of_le_of_lt ((selIdx_spec hi).2.1 k hk) hk3
    rw [consume_succ_of_lt hi h3]
    have hcap : (fuel : Int) ≤ capacity (bumpAt staffs i) := by
      rw [capacity_bumpAt (selIdx_spec hi).1 h3]
      push_cast at h
      omega
    simp [ih (bumpAt staffs i) hcap]

/-! ### The balancing invariant behind fairness -/

lemma bumpAt_id (staffs : List Staff) (t i : Nat) :
    ((bumpAt staffs t).getD i default).staff_id =
      (staffs.getD i default).staff_id := by
  rcases eq_or_ne t i with rfl | hne
  · rcases lt_or_le t staffs.length with h | h
    · rw [getD_bumpAt_self h]
    · rw [bumpAt, List.set_eq_of_length_le h]
  · rw [getD_bumpAt_ne hne]

lemma bumpAt_pc_self {staffs : List Staff} {t : Nat} (h : t < staffs.length) :
    ((bumpAt staffs t).getD t default).priority_count =
      (staffs.getD t default).priority_count + 1 := by
  rw [getD_bumpAt_self h]

/-- Progressive spreading: any position whose id was assigned during the run
ends with a `priority_count` at most one above every position's final
`priority_count` (always picking a global minimum keeps every beneficiary
within one step of the rest of the collection). -/
lemma consume_assigned_close (fuel : Nat) (staffs : List Staff)
    (hnd : (idsOf staffs).Nodup) :
    ∀ i, i < staffs.length →
      (staffs.getD i default).staff_id ∈ (consume fuel staffs).2 →
      ∀ j, j < staffs.length →
        ((consume fuel staffs).1.getD i default).priority_count ≤
          ((consume fuel staffs).1.getD j default).priority_count + 1 := by
  induction fuel generalizing staffs with
  | zero => intro i _ hmem; simp [consume] at hmem
  | succ fuel ih =>
    intro i hi hmem j hj
    cases h : selIdx staffs with
    | none => rw [consume_succ_none h] at hmem; simp at hmem
    | some t =>
      have ht : t < staffs.length := (selIdx_spec h).1
      rcases lt_or_le (pcAt staffs t) 3 with h3 | h3
      · rw [consume_succ_of_lt h h3] at hmem ⊢
        show ((consume fuel (bumpAt staffs t)).1.getD i default).priority_count ≤
          ((consume fuel (bumpAt staffs t)).1.getD j default).priority_count + 1
        have hnd' := idsOf_nodup_bumpAt t hnd
        have hlen : (bumpAt staffs t).length = staffs.length := length_bumpAt _ _
        by_cases hidmem :
            (staffs.getD i default).staff_id ∈ (consume fuel (bumpAt staffs t)).2
        · have hmem' : ((bumpAt staffs t).getD i default).staff_id ∈
              (consume fuel (bumpAt staffs t)).2 := by
            rw [bumpAt_id]; exact hidmem
          exact ih (bumpAt staffs t) hnd' i (hlen ▸ hi) hmem' j (hlen ▸ hj)
        · have heq : (staffs.getD i default).staff_id =
              (staffs.getD t default).staff_id := by
            rcases List.mem_cons.mp hmem with he | htail
            · exact he
            · exact absurd htail hidmem
          have hit : i = t := idsOf_inj hnd hi ht heq
          subst hit
          have hfin : ((consume fuel (bumpAt staffs i)).1.getD i default).priority_count =
              (staffs.getD i default).priority_count + 1 := by
            have hnm : ((bumpAt staffs i).getD i default).staff_id ∉
                (consume fuel (bumpAt staffs i)).2 := by
              rw [bumpAt_id]; exact hidmem
            have := consume_pc_of_not_assigned fuel (bumpAt staffs i) hnd'
              (hlen ▸ hi) hnm
            rw [this, bumpAt_pc_self hi]
          have hmono := (consume_pointwise fuel (bumpAt staffs i) j).2.1
          have hjm : (staffs.getD i default).priority_count ≤
              ((bumpAt staffs i).getD j default).priority_count := by
            rcases eq_or_ne i j with rfl | hij
            · rw [bumpAt_pc_self hi]; omega
            · rw [getD_bumpAt_ne hij]
              exact (selIdx_spec h).2.1 j hj
          rw [hfin]
          omega
      · rw [consume_succ_stop h h3] at hmem; simp at hmem

/-! ### Properties of the mapping step -/

lemma fillSeats_zero (asg : List String) (sm : List Staff) (g : String)
    (idx : Nat) : fillSeats asg sm g 0 idx = (idx, [], false) := rfl

lemma fillSeats_succ (asg : List String) (sm : List Staff) (g : String)
    (seats idx : Nat) :
    fillSeats asg sm g (seats + 1) idx =
      if asg.length ≤ idx then (idx, [], true)
      else
        letI id := asg.getD idx ""
        letI e : Entry := ⟨id, lookupName sm id, g⟩
        letI r := fillSeats asg sm g seats (idx + 1)
        (r.1, e :: r.2.1, r.2.2) := rfl

/-- The seat loop advances `idx` to `min (idx + seats) (len asg)` and appends
the day to `shortage_days` exactly when the assignments run out within this
gate's seats. -/
lemma fillSeats_invariant (asg : List String) (sm : List Staff) (g : String) :
    ∀ (seats idx : Nat), idx ≤ asg.length →
      (fillSeats asg sm g seats idx).1 = min (idx + seats) asg.length ∧
      ((fillSeats asg sm g seats idx).2.2 = true ↔ asg.length < idx + seats) := by
  intro seats
  induction seats with
  | zero =>
    intro idx h
    rw [fillSeats_zero]
    refine ⟨by omega, ?_⟩
    show (false = true) ↔ _
    constructor
    · intro hb; cases hb
    · intro hlt; omega
  | succ seats ih =>
    intro idx h
    rw [fillSeats_succ]
    by_cases hidx : asg.length ≤ idx
    · rw [if_pos hidx]
      refine ⟨by show idx = _; omega, ?_⟩
      show (true = true) ↔ _
      constructor
      · intro _; omega
      · intro _; rfl
    · rw [if_neg hidx]
      have h' : idx + 1 ≤ asg.length := by omega
      obtain ⟨h1, h2⟩ := ih (idx + 1) h'
      refine ⟨?_, ?_⟩
      · show (fillSeats asg sm g seats (idx + 1)).1 = _
        rw [h1]; omega
      · show (fillSeats asg sm g seats (idx + 1)).2.2 = true ↔ _
        rw [h2]; omega

lemma fillGates_nil (asg : List String) (sm : List Staff) (day : String)
    (idx : Nat) : fillGates asg sm day [] idx = (idx, [], []) := rfl

lemma fillGates_cons (asg : List String) (sm : List Staff) (day g : String)
    (gs : List String) (idx : Nat) :
    fillGates asg sm day (g :: gs) idx =
      ((fillGates asg sm day gs (fillSeats asg sm g 2 idx).1).1,
        (fillSeats asg sm g 2 idx).2.1 ++
          (fillGates asg sm day gs (fillSeats asg sm g 2 idx).1).2.1,
        (if (fillSeats asg sm g 2 idx).2.2 then [day] else []) ++
          (fillGates asg sm day gs (fillSeats asg sm g 2 idx).1).2.2) := rfl

/-- The gate loop advances `idx` by two seats per gate (capped at the
assignment count) and its raw shortage contributions are exactly copies of
`day`, present exactly when the assignments run out within this day's
remaining gates. -/
lemma fillGates_invariant (asg : List String) (sm : List Staff) (day : String) :
    ∀ (gs : List String) (idx : Nat), idx ≤ asg.length →
      (fillGates asg sm day gs idx).1 = min (idx + 2 * gs.length) asg.length ∧
      (∀ x, x ∈ (fillGates asg sm day gs idx).2.2 ↔
        (x = day ∧ asg.length < idx + 2 * gs.length)) := by
  intro gs
  induction gs with
  | nil =>
    intro idx h
    rw [fillGates_nil]
    refine ⟨?_, ?_⟩
    · show idx = _
      simp only [List.length_nil]
      omega
    · intro x
      show x ∈ ([] : List String) ↔ _
      simp only [List.length_nil, List.not_mem_nil, false_iff, not_and]
      intro _
      omega
  | cons g gs ih =>
    intro idx h
    obtain ⟨hs1, hs2⟩ := fillSeats_invariant asg sm g 2 idx h
    rw [fillGates_cons]
    have hidx' : (fillSeats asg sm g 2 idx).1 ≤ asg.length := by rw [hs1]; omega
    obtain ⟨hg1, hg2⟩ := ih (fillSeats asg sm g 2 idx).1 hidx'
    refine ⟨?_, ?_⟩
    · show (fillGates asg sm day gs (fillSeats asg sm g 2 idx).1).1 = _
      rw [hg1, hs1]
      simp only [List.length_cons]
      omega
    · intro x
      show x ∈ (if (fillSeats asg sm g 2 idx).2.2 then [day] else []) ++ _ ↔ _
      rw [List.mem_append]
      simp only [List.length_cons]
      constructor
      · intro hx
        rcases hx with hx | hx
        · by_cases hb : (fillSeats asg sm g 2 idx).2.2
          · rw [if_pos hb] at hx
            have hxd : x = day := by simpa using hx
            have := hs2.mp hb
            exact ⟨hxd, by omega⟩
          · rw [if_neg hb] at hx
            simp at hx
        · obtain ⟨hxd, hlt⟩ := (hg2 x).mp hx
          rw [hs1] at hlt
          exact ⟨hxd, by omega⟩
      · rintro ⟨heq, hlt⟩
        by_cases hb : asg.length < idx + 2
        · left
          rw [if_pos (hs2.mpr hb)]
          simpa using heq
        · right
          refine (hg2 x).mpr ⟨heq, ?_⟩
          rw [hs1]
          omega

lemma fillDays_nil (asg : List String) (sm : List Staff) (idx : Nat) :
    fillDays asg sm [] idx = ([], []) := rfl

lemma fillDays_cons (asg : List String) (sm : List Staff) (d : String)
    (ds : List String) (idx : Nat) :
    fillDays asg sm (d :: ds) idx =
      ((if (fillGates asg sm d gates idx).2.1.isEmpty then []
          else [(d, (fillGates asg sm d gates idx).2.1)]) ++
          (fillDays asg sm ds (fillGates asg sm d gates idx).1).1,
        (fillGates asg sm d gates idx).2.2 ++
          (fillDays asg sm ds (fillGates asg sm d gates idx).1).2) := rfl

/-- A day string occurs in the raw `shortage_days` list exactly when it sits
at a position `k` of the remaining weekday list whose six slots are not all
covered by the assignments. -/
lemma fillDays_shortage (asg : List String) (sm : List Staff) :
    ∀ (ds : List String) (idx : Nat), idx ≤ asg.length →
      ∀ x, x ∈ (fillDays asg sm ds idx).2 ↔
        ∃ k, k < ds.length ∧ ds.getD k "" = x ∧
          asg.length < idx + 6 * (k + 1) := by
  intro ds
  induction ds with
  | nil =>
    intro idx h x
    rw [fillDays_nil]
    show x ∈ ([] : List String) ↔ _
    simp
  | cons d ds ih =>
    intro idx h x
    obtain ⟨hg1, hg2⟩ := fillGates_invariant asg sm d gates idx h
    have hg1' : (fillGates asg sm d gates idx).1 = min (idx + 6) asg.length := by
      rw [hg1]
      norm_num [gates]
    have hg2' : ∀ y, y ∈ (fillGates asg sm d gates idx).2.2 ↔
        (y = d ∧ asg.length < idx + 6) := hg2
    have hidx' : (fillGates asg sm d gates idx).1 ≤ asg.length := by
      rw [hg1']; omega
    rw [fillDays_cons]
    show x ∈ (fillGates asg sm d gates idx).2.2 ++ _ ↔ _
    rw [List.mem_append]
    constructor
    · intro hx
      rcases hx with hx | hx
      · obtain ⟨hxd, hlt⟩ := (hg2' x).mp hx
        exact ⟨0, Nat.succ_pos _, by simpa using hxd.symm, by omega⟩
      · obtain ⟨k, hk, hkx, hklt⟩ :=
          (ih (fillGates asg sm d gates idx).1 hidx' x).mp hx
        rw [hg1'] at hklt
        refine ⟨k + 1, Nat.succ_lt_succ hk, by simpa using hkx, by omega⟩
    · rintro ⟨k, hk, hkx, hklt⟩
      cases k with
      | zero =>
        left
        exact (hg2' x).mpr ⟨by simpa using hkx.symm, by omega⟩
      | succ k =>
        right
        refine (ih (fillGates asg sm d gates idx).1 hidx' x).mpr
          ⟨k, by simpa using hk, by simpa using hkx, ?_⟩
        rw [hg1']
        omega

/-! ### Properties of the set-based deduplication -/

lemma mem_dedupAux (x : String) :
    ∀ (l seen : List String), x ∈ dedupAux seen l ↔ (x ∈ l ∧ x ∉ seen) := by
  intro l
  induction l with
  | nil => intro seen; simp [dedupAux]
  | cons y xs ih =>
    intro seen
    rw [dedupAux]
    by_cases hy : seen.contains y
    · rw [if_pos hy]
      rw [ih seen]
      have hys : y ∈ seen := by
        rw [← List.elem_iff]; exact hy
      constructor
      · rintro ⟨hx, hns⟩
        exact ⟨List.mem_cons_of_mem _ hx, hns⟩
      · rintro ⟨hx, hns⟩
        rcases List.mem_cons.mp hx with rfl | hx
        · exact absurd hys hns
        · exact ⟨hx, hns⟩
    · rw [if_neg hy]
      have hys : y ∉ seen := by
        rw [← List.elem_iff]; exact fun hc => hy hc
      constructor
      · intro hx
        rcases List.mem_cons.mp hx with rfl | hx
        · exact ⟨List.mem_cons_self _ _, hys⟩
        · obtain ⟨h1, h2⟩ := (ih (y :: seen)).mp hx
          exact ⟨List.mem_cons_of_mem _ h1,
            fun hc => h2 (List.mem_cons_of_mem _ hc)⟩
      · rintro ⟨hx, hns⟩
        rcases List.mem_cons.mp hx with rfl | hx
        · exact List.mem_cons_self _ _
        · by_cases hxy : x = y
          · subst hxy; exact List.mem_cons_self _ _
          · exact List.mem_cons_of_mem _ ((ih (y :: seen)).mpr
              ⟨hx, by simp [hxy, hns]⟩)

lemma nodup_dedupAux : ∀ (l seen : List String), (dedupAux seen l).Nodup := by
  intro l
  induction l with
  | nil => intro seen; simp [dedupAux]
  | cons y xs ih =>
    intro seen
    rw [dedupAux]
    by_cases hy : seen.contains y
    · rw [if_pos hy]; exact ih seen
    · rw [if_neg hy]
      refine List.nodup_cons.mpr ⟨?_, ih (y :: seen)⟩
      intro hc
      exact ((mem_dedupAux y xs (y :: seen)).mp hc).2 (List.mem_cons_self _ _)

lemma mem_setList (x : String) (l : List String) : x ∈ setList l ↔ x ∈ l := by
  rw [setList, mem_dedupAux]
  simp

lemma nodup_setList (l : List String) : (setList l).Nodup :=
  nodup_dedupAux l []

/-! ### Properties of the write-back loop -/

lemma length_applyStaffUpdate (db : List Staff) (id : String) (pc : Int)
    (pum : Option String) : (applyStaffUpdate db id pc pum).length = db.length := by
  simp [applyStaffUpdate]

lemma getD_applyStaffUpdate_ne {db : List Staff} {i : Nat} (hi : i < db.length)
    (id : String) (pc : Int) (pum : Option String)
    (h : (db.getD i default).staff_id ≠ id) :
    (applyStaffUpdate db id pc pum).getD i default = db.getD i default := by
  have hi' : i < (applyStaffUpdate db id pc pum).length := by
    rw [length_applyStaffUpdate]; exact hi
  rw [List.getD_eq_getElem _ _ hi', List.getD_eq_getElem _ _ hi]
  rw [List.getD_eq_getElem _ _ hi] at h
  simp [applyStaffUpdate, h]

lemma getD_applyStaffUpdate_eq {db : List Staff} {i : Nat} (hi : i < db.length)
    (id : String) (pc : Int) (pum : Option String)
    (h : (db.getD i default).staff_id = id) :
    (applyStaffUpdate db id pc pum).getD i default =
      { db.getD i default with
        priority_count := pc
        priority_updated_month := pum } := by
  have hi' : i < (applyStaffUpdate db id pc pum).length := by
    rw [length_applyStaffUpdate]; exact hi
  rw [List.getD_eq_getElem _ _ hi', List.getD_eq_getElem _ _ hi]
  rw [List.getD_eq_getElem _ _ hi] at h
  simp [applyStaffUpdate, h]

lemma writeback_cons (t : Staff) (rest db : List Staff) (md : String) :
    writeback (t :: rest) db md =
      writeback rest (applyStaffUpdate db t.staff_id t.priority_count (some md)) md := rfl

lemma writeback_length (md : String) :
    ∀ (final db : List Staff), (writeback final db md).length = db.length := by
  intro final
  induction final with
  | nil => intro db; rfl
  | cons t rest ih =>
    intro db
    rw [writeback_cons, ih, length_applyStaffUpdate]

/-- A row whose id matches no written staff object is untouched by the
write-back loop. -/
lemma writeback_getD_notMem (md : String) :
    ∀ (final db : List Staff) (i : Nat), i < db.length →
      (∀ s ∈ final, s.staff_id ≠ (db.getD i default).staff_id) →
      (writeback final db md).getD i default = db.getD i default := by
  intro final
  induction final with
  | nil => intro db i _ _; rfl
  | cons t rest ih =>
    intro db i hi hne
    rw [writeback_cons]
    have hneq : (db.getD i default).staff_id ≠ t.staff_id :=
      fun hcon => hne t (List.mem_cons_self _ _) hcon.symm
    have hstep := getD_applyStaffUpdate_ne hi
      t.staff_id t.priority_count (some md) hneq
    have hi' : i < (applyStaffUpdate db t.staff_id t.priority_count (some md)).length := by
      rw [length_applyStaffUpdate]; exact hi
    rw [ih _ i hi' (by rw [hstep]; exact fun s hs => hne s (List.mem_cons_of_mem _ hs)),
      hstep]

/-- A row matched by exactly one written staff object receives that object's
`priority_count` and the month stamp, all other fields kept. -/
lemma writeback_getD_mem (md : String) :
    ∀ (final : List Staff), (idsOf final).Nodup →
      ∀ (db : List Staff) (i : Nat), i < db.length →
        ∀ s ∈ final, s.staff_id = (db.getD i default).staff_id →
          (writeback final db md).getD i default =
            { db.getD i default with
              priority_count := s.priority_count
              priority_updated_month := some md } := by
  intro final
  induction final with
  | nil => intro _ db i _ s hs; exact absurd hs (List.not_mem_nil _)
  | cons t rest ih =>
    intro hnd db i hi s hs hsid
    have hnd' : (t.staff_id :: idsOf rest).Nodup := hnd
    have hnd1 : t.staff_id ∉ idsOf rest := (List.nodup_cons.mp hnd').1
    have hnd2 : (idsOf rest).Nodup := (List.nodup_cons.mp hnd').2
    rw [writeback_cons]
    rcases List.mem_cons.mp hs with rfl | hsr
    · have hstep := getD_applyStaffUpdate_eq hi
        s.staff_id s.priority_count (some md) hsid.symm
      have hi' : i < (applyStaffUpdate db s.staff_id s.priority_count (some md)).length := by
        rw [length_applyStaffUpdate]; exact hi
      have hrest : ∀ u ∈ rest, u.staff_id ≠
          ((applyStaffUpdate db s.staff_id s.priority_count (some md)).getD i
            default).staff_id := by
        intro u hu hcon
        rw [hstep] at hcon
        have : u.staff_id = (db.getD i default).staff_id := hcon
        rw [← hsid] at this
        exact hnd1 (this ▸ List.mem_map_of_mem (fun v => v.staff_id) hu)
      rw [writeback_getD_notMem md rest _ i hi' hrest, hstep]
    · have hne : (db.getD i default).staff_id ≠ t.staff_id := by
        intro hcon
        have hsidm : s.staff_id ∈ idsOf rest :=
          List.mem_map_of_mem (fun v => v.staff_id) hsr
        rw [hsid, hcon] at hsidm
        exact hnd1 hsidm
      have hstep := getD_applyStaffUpdate_ne hi
        t.staff_id t.priority_count (some md) hne
      have hi' : i < (applyStaffUpdate db t.staff_id t.priority_count (some md)).length := by
        rw [length_applyStaffUpdate]; exact hi
      rw [ih hnd2 _ i hi' s hsr (by rw [hstep]; exact hsid), hstep]

/-! ### The fetch -/

lemma fetchEligible_perm (db : List Staff) :
    (fetchEligible db).Perm (db.filter (fun s => s.busy_9_10 == false)) :=
  sortStable_perm _ _

lemma idsOf_fetchEligible_nodup {db : List Staff} (h : (idsOf db).Nodup) :
    (idsOf (fetchEligible db)).Nodup := by
  have hperm : (idsOf (fetchEligible db)).Perm
      (idsOf (db.filter (fun s => s.busy_9_10 == false))) :=
    (fetchEligible_perm db).map _
  have hsub : (idsOf (db.filter (fun s => s.busy_9_10 == false))).Sublist (idsOf db) :=
    (List.filter_sublist db).map _
  exact hperm.nodup_iff.mpr (hsub.nodup h)

/-! ### Handler-level helpers -/

lemma consume_idsOf (fuel : Nat) (staffs : List Staff) :
    idsOf (consume fuel staffs).1 = idsOf staffs := by
  apply List.ext_getElem
  · simp [idsOf, consume_length]
  · intro j h1 h2
    have hj1 : j < (consume fuel staffs).1.length := by
      simpa [idsOf] using h1
    have hj2 : j < staffs.length := by
      simpa [idsOf] using h2
    rw [← List.getD_eq_getElem _ "" h1, ← List.getD_eq_getElem _ "" h2,
      idsOf_getD hj1, idsOf_getD hj2]
    exact consume_id_eq fuel staffs j

/-- `generate_monthly_schedule` on a non-empty month label, unfolded into its
fetch, consumption, mapping and write-back stages. -/
lemma generate_some_eq (m : String) (hm : ¬(m = "")) (db : List Staff) :
    generate_monthly_schedule (some m) db =
      (.scheduleOk ⟨m,
          (fillDays (consume TOTAL_SLOTS (fetchEligible db)).2
            (consume TOTAL_SLOTS (fetchEligible db)).1 weekdays 0).1,
          setList (fillDays (consume TOTAL_SLOTS (fetchEligible db)).2
            (consume TOTAL_SLOTS (fetchEligible db)).1 weekdays 0).2⟩,
        writeback (consume TOTAL_SLOTS (fetchEligible db)).1 db (m ++ "-01")) := by
  show (if m = "" then _ else _) = _
  rw [if_neg hm]
  rfl

lemma int_max?_spec {l : List Int} {m : Int} (h : l.max? = some m) :
    m ∈ l ∧ ∀ x ∈ l, x ≤ m := by
  rw [List.max?_eq_some_iff] at h
  · exact h
  · exact fun a => le_refl a
  · exact fun a b => max_choice a b
  · exact fun a b c => max_le_iff

lemma int_min?_spec {l : List Int} {m : Int} (h : l.min? = some m) :
    m ∈ l ∧ ∀ x ∈ l, m ≤ x := by
  rw [List.min?_eq_some_iff] at h
  · exact h
  · exact fun a => le_refl a
  · exact fun a b => min_choice a b
  · exact fun a b c => le_min_iff

/-- Distinct weekday labels: positions in `weekdays` are recoverable from the
label. -/
lemma weekdays_inj : ∀ a < weekdays.length, ∀ b < weekdays.length,
    weekdays.getD a "" = weekdays.getD b "" → a = b := by decide

/-! ### Claim theorems -/

/-- C1: in every iteration of the consumption loop, the scheduler selects the
staff member that is first in the original fetch order among all eligible
staff holding the globally minimum `priority_count`, emits that staff
member's id as the next assignment (the assignment list is consumed onto the
slot layout in order), and increments that staff member's `priority_count`
by exactly 1 before the next selection is made. -/
theorem C1_progressive_selection (staffs : List Staff) (fuel i : Nat)
    (hsel : selIdx staffs = some i) (hceil : pcAt staffs i < 3) :
    i < staffs.length ∧
    (∀ j, j < staffs.length → pcAt staffs i ≤ pcAt staffs j) ∧
    (∀ j, j < i → pcAt staffs i < pcAt staffs j) ∧
    pcAt (bumpAt staffs i) i = pcAt staffs i + 1 ∧
    consume (fuel + 1) staffs =
      ((consume fuel (bumpAt staffs i)).1,
        (staffs.getD i default).staff_id :: (consume fuel (bumpAt staffs i)).2) := by
  obtain ⟨h1, h2, h3⟩ := selIdx_spec hsel
  refine ⟨h1, h2, h3, ?_, consume_succ_of_lt hsel hceil fuel⟩
  simp only [pcAt]
  exact bumpAt_pc_self h1

/-- Witness for C1 at the two-staff snapshot `[wA, wB]` (both counters 0):
the selection hypothesis holds there, position 0 is picked, and one loop
iteration emits `"A"` and bumps its counter. -/
theorem C1_progressive_selection_witness :
    selIdx [wA, wB] = some 0 ∧ pcAt [wA, wB] 0 < 3 ∧
    pcAt (bumpAt [wA, wB] 0) 0 = pcAt [wA, wB] 0 + 1 ∧
    consume 1 [wA, wB] =
      ((consume 0 (bumpAt [wA, wB] 0)).1,
        (([wA, wB] : List Staff).getD 0 default).staff_id ::
          (consume 0 (bumpAt [wA, wB] 0)).2) := by
  have h := C1_progressive_selection [wA, wB] 0 0 (by decide) (by decide)
  exact ⟨by decide, by decide, h.2.2.2.1, h.2.2.2.2⟩

/-- C2: the number of assignments never exceeds the total slot count (36),
and equals it whenever the eligible supply is sufficient, i.e. the sum over
all eligible staff of (ceiling 3 minus initial `priority_count`) is at least
the total slot count. -/
theorem C2_assignment_count (staffs : List Staff) :
    (consume TOTAL_SLOTS staffs).2.length ≤ TOTAL_SLOTS ∧
    (((TOTAL_SLOTS : Nat) : Int) ≤
        (staffs.map (fun s => 3 - s.priority_count)).sum →
      (consume TOTAL_SLOTS staffs).2.length = TOTAL_SLOTS) := by
  refine ⟨consume_asg_length_le _ _, ?_⟩
  intro h
  apply consume_full
  refine le_trans h ?_
  apply List.sum_le_sum
  intro s _
  exact le_max_right _ _

/-- Witness for C2: twelve eligible staff objects with counter 0 supply
`12 * 3 = 36 ≥ 36`, so the run fills all 36 slots. -/
theorem C2_assignment_count_witness :
    (consume TOTAL_SLOTS (List.replicate 12 wA)).2.length ≤ TOTAL_SLOTS ∧
    (consume TOTAL_SLOTS (List.replicate 12 wA)).2.length = TOTAL_SLOTS :=
  ⟨(C2_assignment_count (List.replicate 12 wA)).1,
    (C2_assignment_count (List.replicate 12 wA)).2 (by decide)⟩

/-- C3: over eligible staff with non-negative counters and distinct ids, no
staff member receives more than 3 assignments in a run, and no final
`priority_count` exceeds the maximum of its pre-run value and the ceiling 3. -/
theorem C3_ceiling (staffs : List Staff)
    (hnn : ∀ s ∈ staffs, 0 ≤ s.priority_count)
    (hnd : (idsOf staffs).Nodup) :
    ∀ i, i < staffs.length →
      (consume TOTAL_SLOTS staffs).2.count
          (staffs.getD i default).staff_id ≤ 3 ∧
      ((consume TOTAL_SLOTS staffs).1.getD i default).priority_count ≤
        max (staffs.getD i default).priority_count 3 := by
  intro i hi
  have hmax := (consume_pointwise TOTAL_SLOTS staffs i).2.2
  have hcount := consume_count TOTAL_SLOTS staffs hnd hi
  have h0 : 0 ≤ (staffs.getD i default).priority_count := by
    apply hnn
    rw [List.getD_eq_getElem _ _ hi]
    exact List.getElem_mem hi
  refine ⟨?_, hmax⟩
  have hc : ((consume TOTAL_SLOTS staffs).2.count
      (staffs.getD i default).staff_id : Int) ≤ 3 := by omega
  exact_mod_cast hc

/-- Witness for C3 at the snapshot `[wA, wB, wD]` (counters 0, 0, 5; distinct
ids), instantiated at position 0. -/
theorem C3_ceiling_witness :
    (consume TOTAL_SLOTS [wA, wB, wD]).2.count
        (([wA, wB, wD] : List Staff).getD 0 default).staff_id ≤ 3 ∧
    ((consume TOTAL_SLOTS [wA, wB, wD]).1.getD 0 default).priority_count ≤
      max (([wA, wB, wD] : List Staff).getD 0 default).priority_count 3 :=
  C3_ceiling [wA, wB, wD] (by decide) (by decide) 0 (by decide)

/-- C5: determinism — two scheduling runs from an identical snapshot of the
staff table (hence identical eligible staff, counters and fetch order) and
the fixed slot layout produce identical responses (in particular identical
assignment plans) and identical written-back tables. -/
theorem C5_determinism (month : Option String) (db1 db2 : List Staff)
    (h : db1 = db2) :
    generate_monthly_schedule month db1 = generate_monthly_schedule month db2 := by
  rw [h]

/-- Witness for C5 at the snapshot `[wA, wB]` and month `"2025-01"`. -/
theorem C5_determinism_witness :
    generate_monthly_schedule (some "2025-01") [wA, wB] =
      generate_monthly_schedule (some "2025-01") [wA, wB] :=
  C5_determinism (some "2025-01") [wA, wB] [wA, wB] rfl

/-- C4: in every scheduling run, a weekday appears in the returned shortage
list at most once (the raw list is deduplicated through `set`), and a
weekday appears in it exactly when the produced assignments ran out before
all 6 of that weekday's slots (3 gates × 2 seats, filled in layout order)
were filled — unfilled slots are reported, never dropped or filled from a
later day's allotment. -/
theorem C4_shortage_days (m : String) (hm : ¬(m = "")) (db : List Staff) :
    (respShortage (generate_monthly_schedule (some m) db).1).Nodup ∧
    ∀ k, k < weekdays.length →
      (weekdays.getD k "" ∈
          respShortage (generate_monthly_schedule (some m) db).1 ↔
        (consume TOTAL_SLOTS (fetchEligible db)).2.length < 6 * (k + 1)) := by
  rw [generate_some_eq m hm db]
  constructor
  · exact nodup_setList _
  · intro k hk
    rw [show respShortage (Resp.scheduleOk ⟨m,
        (fillDays (consume TOTAL_SLOTS (fetchEligible db)).2
          (consume TOTAL_SLOTS (fetchEligible db)).1 weekdays 0).1,
        setList (fillDays (consume TOTAL_SLOTS (fetchEligible db)).2
          (consume TOTAL_SLOTS (fetchEligible db)).1 weekdays 0).2⟩) =
      setList (fillDays (consume TOTAL_SLOTS (fetchEligible db)).2
        (consume TOTAL_SLOTS (fetchEligible db)).1 weekdays 0).2 from rfl]
    rw [mem_setList]
    rw [fillDays_shortage _ _ weekdays 0 (Nat.zero_le _)]
    constructor
    · rintro ⟨k2, hk2, hkeq, hlt⟩
      have hkk : k2 = k := weekdays_inj k2 hk2 k hk hkeq
      subst hkk
      simpa using hlt
    · intro hlt
      exact ⟨k, hk, rfl, by simpa using hlt⟩

/-- Witness for C4 at the snapshot `[wA]` and month `"2025-01"` (3
assignments, so Monday's six slots are already short), instantiated at
weekday position 0. -/
theorem C4_shortage_days_witness :
    (respShortage (generate_monthly_schedule (some "2025-01") [wA]).1).Nodup ∧
    ("Monday" ∈ respShortage (generate_monthly_schedule (some "2025-01") [wA]).1 ↔
      (consume TOTAL_SLOTS (fetchEligible [wA])).2.length < 6 * (0 + 1)) := by
  have h := C4_shortage_days "2025-01" (by decide) [wA]
  exact ⟨h.1, h.2 0 (by decide)⟩

/-- C6: fairness — after a run, the spread (max minus min `priority_count`)
over the assigned staff is at most 1 more than the same spread before the
run; in fact the final spread over assigned staff is never more than 1,
exhaustion included, so no exception clause is needed. -/
theorem C6_fairness (staffs : List Staff) (hnd : (idsOf staffs).Nodup)
    (mB nB mA nA : Int)
    (hmB : ((staffs.filter
        (fun s => (consume TOTAL_SLOTS staffs).2.contains s.staff_id)).map
          (fun s => s.priority_count)).max? = some mB)
    (hnB : ((staffs.filter
        (fun s => (consume TOTAL_SLOTS staffs).2.contains s.staff_id)).map
          (fun s => s.priority_count)).min? = some nB)
    (hmA : (((consume TOTAL_SLOTS staffs).1.filter
        (fun s => (consume TOTAL_SLOTS staffs).2.contains s.staff_id)).map
          (fun s => s.priority_count)).max? = some mA)
    (hnA : (((consume TOTAL_SLOTS staffs).1.filter
        (fun s => (consume TOTAL_SLOTS staffs).2.contains s.staff_id)).map
          (fun s => s.priority_count)).min? = some nA) :
    mA - nA ≤ (mB - nB) + 1 := by
  obtain ⟨hmBmem, _⟩ := int_max?_spec hmB
  obtain ⟨_, hnBle⟩ := int_min?_spec hnB
  have hBnn : 0 ≤ mB - nB := by
    have := hnBle mB hmBmem
    omega
  obtain ⟨hmAmem, _⟩ := int_max?_spec hmA
  obtain ⟨hnAmem, _⟩ := int_min?_spec hnA
  obtain ⟨sA, hsA, hsApc⟩ := List.mem_map.mp hmAmem
  obtain ⟨sN, hsN, hsNpc⟩ := List.mem_map.mp hnAmem
  obtain ⟨hsAfin, hsAasg⟩ := List.mem_filter.mp hsA
  obtain ⟨hsNfin, _⟩ := List.mem_filter.mp hsN
  obtain ⟨iA, hiA, hiAe⟩ := List.mem_iff_getElem.mp hsAfin
  obtain ⟨iN, hiN, hiNe⟩ := List.mem_iff_getElem.mp hsNfin
  have hiA' : iA < staffs.length := by
    rw [consume_length] at hiA; exact hiA
  have hiN' : iN < staffs.length := by
    rw [consume_length] at hiN; exact hiN
  have hgA : (consume TOTAL_SLOTS staffs).1.getD iA default = sA := by
    rw [List.getD_eq_getElem _ _ hiA]; exact hiAe
  have hgN : (consume TOTAL_SLOTS staffs).1.getD iN default = sN := by
    rw [List.getD_eq_getElem _ _ hiN]; exact hiNe
  have hmemA : (staffs.getD iA default).staff_id ∈ (consume TOTAL_SLOTS staffs).2 := by
    have hid : (staffs.getD iA default).staff_id = sA.staff_id := by
      rw [← consume_id_eq TOTAL_SLOTS staffs iA, hgA]
    rw [hid, ← List.elem_iff]
    exact hsAasg
  have hclose := consume_assigned_close TOTAL_SLOTS staffs hnd iA hiA' hmemA iN hiN'
  rw [hgA, hgN] at hclose
  omega

/-- Witness for C6 at the snapshot `[wA, wB]` (both counters 0): both staff
are assigned; spreads are 0 before and 0 after. -/
theorem C6_fairness_witness : (3 : Int) - 3 ≤ (0 - 0) + 1 :=
  C6_fairness [wA, wB] (by decide) 0 0 3 3
    (by decide) (by decide) (by decide) (by decide)

/-- C7: with exactly three eligible staff at counter 0, a run produces
exactly 9 assignments (each staff member ending at `priority_count` 3),
leaves 27 of the 36 slots unfilled, and reports a shortage for exactly the
2nd through 6th weekdays (whose slots extend past the 9th in layout order). -/
theorem C7_three_staff_run :
    (consume TOTAL_SLOTS (fetchEligible [wA, wB, wC])).2.length = 9 ∧
    (consume TOTAL_SLOTS (fetchEligible [wA, wB, wC])).1.map
        (fun s => s.priority_count) = [3, 3, 3] ∧
    TOTAL_SLOTS - (consume TOTAL_SLOTS (fetchEligible [wA, wB, wC])).2.length = 27 ∧
    respShortage (generate_monthly_schedule (some "2025-01") [wA, wB, wC]).1 =
      ["Tuesday", "Wednesday", "Thursday", "Friday", "Saturday"] :=
  ⟨by decide, by decide, by decide, by decide⟩

/-- C8 counterexample: the delete-month operation invoked with the
confirmation token supplied but the month absent does not surface a
MissingParameter (or any) error response — `month + "-01"` raises an
uncaught `TypeError` — so the claim fails as stated on this input (no
mutation occurs, though). -/
theorem C8_counterexample :
    (delete_month_schedule none (some "CONFIRM")
        [⟨"S1", "2025-01-01", "Monday", "Gate A"⟩]).1 = Resp.typeError ∧
    isErrorResponse (delete_month_schedule none (some "CONFIRM")
        [⟨"S1", "2025-01-01", "Monday", "Gate A"⟩]).1 = false ∧
    (delete_month_schedule none (some "CONFIRM")
        [⟨"S1", "2025-01-01", "Monday", "Gate A"⟩]).2 =
      [⟨"S1", "2025-01-01", "Monday", "Gate A"⟩] :=
  ⟨rfl, rfl, rfl⟩

/-- C8 (amended): every handler rejects a request whose checked required
inputs are absent before performing any persistence mutation — absent month
in schedule generation, absent staff_id/staff_name/department in
add-or-update-staff, absent confirmation in reset and in delete-month all
yield an immediate 400 error with the store unchanged; delete-month with the
confirmation supplied but the month absent, however, raises an uncaught
`TypeError` instead of a MissingParameter error — still with no mutation. -/
theorem C8_missing_parameter (db : List Staff) (sched : List ScheduleRow)
    (sid sn dp mo : Option String) (b : Bool) :
    generate_monthly_schedule none db = (.json 400 "month required", db) ∧
    add_or_update_staff none sn dp b db =
      (.json 400 "staff_id, staff_name, department required", db) ∧
    add_or_update_staff sid none dp b db =
      (.json 400 "staff_id, staff_name, department required", db) ∧
    add_or_update_staff sid sn none b db =
      (.json 400 "staff_id, staff_name, department required", db) ∧
    reset_priority none db = (.json 400 "Confirmation failed", db) ∧
    delete_month_schedule mo none sched = (.json 400 "Type CONFIRM", sched) ∧
    delete_month_schedule none (some "CONFIRM") sched = (.typeError, sched) := by
  refine ⟨rfl, ?_, ?_, ?_, rfl, rfl, rfl⟩
  · rfl
  · cases hsid : truthy sid
    · rw [add_or_update_staff, if_pos (by rw [hsid]; rfl)]
    · rw [add_or_update_staff, if_pos (by rw [hsid]; rfl)]
  · cases hsid : truthy sid
    · rw [add_or_update_staff, if_pos (by rw [hsid]; rfl)]
    · cases hsn : truthy sn
      · rw [add_or_update_staff, if_pos (by rw [hsid, hsn]; rfl)]
      · rw [add_or_update_staff, if_pos (by rw [hsid, hsn]; rfl)]

/-- C9: the reset-priority operation with the exact confirmation token sets
every staff row's `priority_count` to 0 and clears `priority_updated_month`
(and nothing else); with any other confirmation value it rejects the request
with the table unchanged. -/
theorem C9_reset_priority (db : List Staff) (conf : Option String) :
    (conf = some "CONFIRM" →
      reset_priority conf db =
        (.json 200 "All staff priorities reset",
          db.map (fun r =>
            { r with priority_count := 0, priority_updated_month := none })) ∧
      ∀ s ∈ (reset_priority conf db).2,
        s.priority_count = 0 ∧ s.priority_updated_month = none) ∧
    (conf ≠ some "CONFIRM" →
      reset_priority conf db = (.json 400 "Confirmation failed", db)) := by
  constructor
  · intro h
    subst h
    constructor
    · rw [reset_priority, if_pos rfl]
    · intro s hs
      rw [reset_priority, if_pos rfl] at hs
      obtain ⟨r, _, hr⟩ := List.mem_map.mp hs
      rw [← hr]
      exact ⟨rfl, rfl⟩
  · intro h
    rw [reset_priority, if_neg h]

/-- Witness for C9 at the one-row table `[wF]` (counter 7, stamped month):
the confirmed call zeroes the counter and clears the stamp; a wrong
confirmation leaves the table unchanged. -/
theorem C9_reset_priority_witness :
    reset_priority (some "CONFIRM") [wF] =
      (.json 200 "All staff priorities reset",
        ([wF] : List Staff).map (fun r =>
          { r with priority_count := 0, priority_updated_month := none })) ∧
    reset_priority (some "NOPE") [wF] =
      (.json 400 "Confirmation failed", [wF]) :=
  ⟨((C9_reset_priority [wF] (some "CONFIRM")).1 rfl).1,
    (C9_reset_priority [wF] (some "NOPE")).2 (by decide)⟩

/-- C10: the write-back at the end of a run touches exactly the fetched
eligible rows (`busy_9_10 = false`): each eligible row receives the run's
final `priority_count` for its id and a `priority_updated_month` stamp of
the run's month — even when it received zero assignments — while every
`busy_9_10 = true` row is left exactly as it was. -/
theorem C10_writeback_frame (m : String) (hm : ¬(m = "")) (db : List Staff)
    (hnd : (idsOf db).Nodup) :
    (generate_monthly_schedule (some m) db).2.length = db.length ∧
    ∀ i, i < db.length →
      ((db.getD i default).busy_9_10 = true →
        (generate_monthly_schedule (some m) db).2.getD i default =
          db.getD i default) ∧
      ((db.getD i default).busy_9_10 = false →
        ∃ s, s ∈ (consume TOTAL_SLOTS (fetchEligible db)).1 ∧
          s.staff_id = (db.getD i default).staff_id ∧
          (generate_monthly_schedule (some m) db).2.getD i default =
            { db.getD i default with
              priority_count := s.priority_count
              priority_updated_month := some (m ++ "-01") }) := by
  rw [generate_some_eq m hm db]
  have hndfin : (idsOf (consume TOTAL_SLOTS (fetchEligible db)).1).Nodup := by
    rw [consume_idsOf]
    exact idsOf_fetchEligible_nodup hnd
  refine ⟨writeback_length _ _ _, ?_⟩
  intro i hi
  constructor
  · intro hbusy
    apply writeback_getD_notMem _ _ _ _ hi
    intro s hs hcon
    obtain ⟨k, hk, hke⟩ := List.mem_iff_getElem.mp hs
    have hk' : k < (fetchEligible db).length := by
      rw [consume_length] at hk; exact hk
    have hsid : s.staff_id = ((fetchEligible db).getD k default).staff_id := by
      rw [← consume_id_eq TOTAL_SLOTS (fetchEligible db) k,
        List.getD_eq_getElem _ _ hk, hke]
    have hmemf : (fetchEligible db).getD k default ∈ fetchEligible db := by
      rw [List.getD_eq_getElem _ _ hk']
      exact List.getElem_mem hk'
    have hmemfil : (fetchEligible db).getD k default ∈
        db.filter (fun s => s.busy_9_10 == false) :=
      (fetchEligible_perm db).mem_iff.mp hmemf
    obtain ⟨hmemdb, hbf⟩ := List.mem_filter.mp hmemfil
    obtain ⟨p, hp, hpe⟩ := List.mem_iff_getElem.mp hmemdb
    have hpi : p = i := by
      apply idsOf_inj hnd hp hi
      rw [List.getD_eq_getElem _ _ hp, hpe, ← hsid, hcon]
    have hfalse : (db.getD i default).busy_9_10 = false := by
      rw [← hpi, List.getD_eq_getElem _ _ hp, hpe]
      simpa using hbf
    rw [hbusy] at hfalse
    cases hfalse
  · intro hbusy
    have hmemfil : db.getD i default ∈
        db.filter (fun s => s.busy_9_10 == false) := by
      rw [List.mem_filter]
      refine ⟨?_, by rw [hbusy]; rfl⟩
      rw [List.getD_eq_getElem _ _ hi]
      exact List.getElem_mem hi
    have hmemf : db.getD i default ∈ fetchEligible db :=
      (fetchEligible_perm db).mem_iff.mpr hmemfil
    obtain ⟨k, hk, hke⟩ := List.mem_iff_getElem.mp hmemf
    have hkc : k < (consume TOTAL_SLOTS (fetchEligible db)).1.length := by
      rw [consume_length]; exact hk
    have hsid2 : ((consume TOTAL_SLOTS (fetchEligible db)).1.getD k
        default).staff_id = (db.getD i default).staff_id := by
      rw [consume_id_eq TOTAL_SLOTS (fetchEligible db) k,
        List.getD_eq_getElem _ _ hk, hke]
    have hsmem : (consume TOTAL_SLOTS (fetchEligible db)).1.getD k default ∈
        (consume TOTAL_SLOTS (fetchEligible db)).1 := by
      rw [List.getD_eq_getElem _ _ hkc]
      exact List.getElem_mem hkc
    exact ⟨(consume TOTAL_SLOTS (fetchEligible db)).1.getD k default,
      hsmem, hsid2,
      writeback_getD_mem _ _ hndfin _ _ hi _ hsmem hsid2⟩

/-- Witness for C10 at the table `[wA, wE]` (`wA` eligible, `wE` busy) and
month `"2025-01"`: the busy row is bit-for-bit unchanged, and the table
keeps its length. -/
theorem C10_writeback_frame_witness :
    (generate_monthly_schedule (some "2025-01") [wA, wE]).2.length =
      ([wA, wE] : List Staff).length ∧
    (generate_monthly_schedule (some "2025-01") [wA, wE]).2.getD 1 default =
      ([wA, wE] : List Staff).getD 1 default := by
  have h := C10_writeback_frame "2025-01" (by decide) [wA, wE] (by decide)
  exact ⟨h.1, (h.2 1 (by decide)).1 (by decide)⟩

end StaffSchedule
